import Mathlib

/-!
# Verification of the Wordle solver (`src/wordle-solver.ts`, `src/utils.ts`)

A shallow embedding of the TypeScript Wordle solver.  Words and feedback
strings are modelled as `List Char`; the mutable `WordleSolver` class becomes
a record that every operation transforms explicitly; a JavaScript `throw`
becomes an `Option String` error component returned next to the (unchanged)
state; the `Record<string, number>` frequency table becomes a function
`Char → Option Nat` where `none` models an absent key (`undefined`), and
`NaN`-producing arithmetic on `undefined` is modelled by `Option`-poisoning
addition.  `Array.prototype.sort` with a comparator is modelled as a stable
comparator sort (ECMAScript `SortCompare` turns a `NaN` comparator result
into `+0`, which `optCmpSub` reproduces).
-/

namespace Wordle

/-- A word (or a feedback string): a JavaScript string viewed as its list of
characters (`word.split("")`). -/
abbrev Word := List Char

/-- `zip` from `src/utils.ts`: `xs.map((x, i) => [x, ys[i]])`.  The lookup
`ys[i]` may be `undefined`, hence the `Option` in the second component; the
successive indexed lookups are realised by `head?`/`tail` as the recursion
walks down `xs`. -/
def zipU (xs : List Char) (ys : List Char) : List (Char × Option Char) :=
  match xs with
  | [] => []
  | x :: rest => (x, ys.head?) :: zipU rest ys.tail

/-- The `WordleSolver` class state: fields `corpus`, `startingWord`,
`guessesAndScores`, `logging`, `guessLength`. -/
structure WordleSolver where
  corpus : List Word
  startingWord : Option Word
  guessesAndScores : List (Word × Word)
  logging : Bool
  guessLength : Nat
deriving DecidableEq, Repr

/-- The value `letterFreq[letter]` holds right after
`if (!letterFreq[letter]) letterFreq[letter] = 1;`: an absent key
(`undefined`) and `0` are falsy and are replaced by `1`; a positive count is
kept. -/
def truthyBump (v : Option Nat) : Nat :=
  match v with
  | some (n + 1) => n + 1
  | _ => 1

/-- One execution of
`if (!letterFreq[letter]) letterFreq[letter] = 1; letterFreq[letter]++;`. -/
def bumpLetter (m : Char → Option Nat) (letter : Char) : Char → Option Nat :=
  fun c => if c = letter then some (truthyBump (m letter) + 1) else m c

/-- The body of the inner `forEach` of `letterFrequency`:
`if (atIndex !== null && atIndex !== index) return;` then the bump. -/
def lfStep (atIndex : Option Nat) (m : Char → Option Nat) (p : Nat × Char) :
    Char → Option Nat :=
  if atIndex ≠ none ∧ atIndex ≠ some p.1 then m else bumpLetter m p.2

/-- `letterFrequency(atIndex)`: iterate over every word of the corpus and
every (index, letter) pair of the word, updating the table.  (The
`bestLetters` string computed at the end of the method only feeds
`console.log` and does not affect the returned table.) -/
def letterFrequency (corpus : List Word) (atIndex : Option Nat) :
    Char → Option Nat :=
  corpus.foldl (fun m word => word.enum.foldl (lfStep atIndex) m)
    (fun _ => none)

/-- JavaScript `acc + letterFreq[letter]`: adding `undefined` yields `NaN`
(modelled `none`), and `NaN` is absorbing. -/
def addFreq : Option Nat → Option Nat → Option Nat
  | some a, some b => some (a + b)
  | _, _ => none

/-- `word.split("").reduce((acc, letter) => acc + letterFreq[letter], 0)`,
the per-word frequency total used by the ranking comparator. -/
def wordFreqSum (letterFreq : Char → Option Nat) (w : Word) : Option Nat :=
  w.foldl (fun acc letter => addFreq acc (letterFreq letter)) (some 0)

/-- `bFreq - aFreq` as a comparator result: a `NaN` operand makes the
comparator return `NaN`, which ECMAScript `SortCompare` treats as `+0`. -/
def optCmpSub : Option Nat → Option Nat → Int
  | some a, some b => (a : Int) - (b : Int)
  | _, _ => 0

/-- The `byFrequency` comparator of `sortByCommonness`: prefer more distinct
letters (`new Set(a).size`, modelled by `dedup`), tie-break by larger summed
letter frequency. -/
def byFrequency (letterFreq : Char → Option Nat) (a b : Word) : Int :=
  let aUniqs : Int := a.dedup.length
  let bUniqs : Int := b.dedup.length
  let differenceOfUniqueness := bUniqs - aUniqs
  if differenceOfUniqueness ≠ 0 then differenceOfUniqueness
  else optCmpSub (wordFreqSum letterFreq b) (wordFreqSum letterFreq a)

/-- Insert `a` in front of the first element it compares `≤` to. -/
def orderedInsert (le : Word → Word → Bool) (a : Word) : List Word → List Word
  | [] => [a]
  | b :: l => if le a b then a :: b :: l else b :: orderedInsert le a l

/-- A stable comparator sort, modelling `Array.prototype.sort(cmp)` (V8's
TimSort is stable; any two stable sorts by the same total preorder agree). -/
def stableSort (le : Word → Word → Bool) (l : List Word) : List Word :=
  l.foldr (orderedInsert le) []

/-- `sortByCommonness`: compute `letterFrequency()` of the current corpus,
then `this.corpus.sort(byFrequency)`. -/
def sortByCommonness (corpus : List Word) : List Word :=
  let letterFreq := letterFrequency corpus none
  stableSort (fun a b => decide (byFrequency letterFreq a b ≤ 0)) corpus

/-- `reset(corpus)`: replace the corpus with a copy of the given list and
clear the history; `startingWord` is untouched. -/
def reset (s : WordleSolver) (corpus : List Word) : WordleSolver :=
  { s with corpus := corpus, guessesAndScores := [] }

/-- `sort()` (which just delegates to `sortByCommonness`), as a state
transformer: the corpus is sorted in place. -/
def sortSolver (s : WordleSolver) : WordleSolver :=
  { s with corpus := sortByCommonness s.corpus }

/-- `getSolutions()`: sorts the corpus (mutating the solver) and returns it. -/
def getSolutions (s : WordleSolver) : WordleSolver × List Word :=
  let t := sortSolver s
  (t, t.corpus)

/-- The constructor: `guessLength = 5`, `reset(corpus)`, `sort()`, then
`startingWord = startingWord ?? getSolutions()[0] ?? null`. -/
def construct (corpus : List Word) (startingWord : Option Word)
    (logging : Bool) : WordleSolver :=
  let s0 : WordleSolver :=
    { corpus := [], startingWord := none, guessesAndScores := [],
      logging := logging, guessLength := 5 }
  let s1 := sortSolver (reset s0 corpus)
  let p := getSolutions s1
  { p.1 with startingWord := startingWord.orElse (fun _ => p.2.head?) }

/-- `getBestGuess()`: the starting word while no guess has been scored,
otherwise the head of the freshly sorted solution list (`?? null`). -/
def getBestGuess (s : WordleSolver) : WordleSolver × Option Word :=
  if s.guessesAndScores.length = 0 then (s, s.startingWord)
  else
    let p := getSolutions s
    (p.1, p.2.head?)

/-- `excludeLetters`: drop every word containing one of the given letters
(`new Set` membership is list membership). -/
def excludeLetters (s : WordleSolver) (lettersToExclude : List Char) :
    WordleSolver :=
  { s with corpus := s.corpus.filter (fun word =>
      word.all (fun letter => !(lettersToExclude.contains letter))) }

/-- `excludeWithLetter`: keep only words without the letter at `index`
(`word[index]` is `undefined` past the end, which never equals a letter). -/
def excludeWithLetter (s : WordleSolver) (wrongLetter : Char) (index : Nat) :
    WordleSolver :=
  { s with corpus := s.corpus.filter (fun word =>
      !(word[index]? == some wrongLetter)) }

/-- `keepWithCorrectLetter`: keep only words with the letter at `index`. -/
def keepWithCorrectLetter (s : WordleSolver) (correctLetter : Char)
    (index : Nat) : WordleSolver :=
  { s with corpus := s.corpus.filter (fun word =>
      word[index]? == some correctLetter) }

/-- `keepWithMisplacedLetter`: keep only words containing the letter, but
not at `index`. -/
def keepWithMisplacedLetter (s : WordleSolver) (misplacedLetter : Char)
    (index : Nat) : WordleSolver :=
  { s with corpus := s.corpus.filter (fun word =>
      !(word[index]? == some misplacedLetter) && word.contains misplacedLetter) }

/-- The `duplicateLetters` set of `score`:
`guess.split("").filter((letter, index) => guess.slice(index + 1).includes(letter))`
— the letters that have a further occurrence later in the guess. -/
def duplicateLetters : List Char → List Char
  | [] => []
  | letter :: rest =>
    (if rest.contains letter then [letter] else []) ++ duplicateLetters rest

/-- The `guessAndScore.forEach((.., index) => switch (scoreLetter) ...)` loop
of `score`, threading the growing index. -/
def applyScores (s : WordleSolver) (index : Nat) :
    List (Char × Option Char) → WordleSolver
  | [] => s
  | p :: rest =>
    let t :=
      if p.2 == some 'x' then keepWithCorrectLetter s p.1 index
      else if p.2 == some 'i' then keepWithMisplacedLetter s p.1 index
      else if p.2 == some 'e' then excludeWithLetter s p.1 index
      else s
    applyScores t (index + 1) rest

/-- `score(guess, score)`.  The three `throw`s become a `some errorMessage`
first component with the state returned untouched; on success the first
component is `none`. -/
def score (s : WordleSolver) (guess : Word) (scoreArg : Word) :
    Option String × WordleSolver :=
  if guess.length ≠ s.guessLength then
    (some "Guess must be guessLength letters long.", s)
  else if scoreArg.length ≠ s.guessLength then
    (some "Score must be guessLength letters long.", s)
  else
    let loweredScore := scoreArg.map Char.toLower
    let invalidScoreLetters :=
      scoreArg.filter (fun l => !(l == 'x') && !(l == 'e') && !(l == 'i'))
    if invalidScoreLetters.length ≠ 0 then
      (some "Invalid score letters.", s)
    else
      let s1 := { s with
        guessesAndScores := s.guessesAndScores ++ [(guess, loweredScore)] }
      let guessAndScore := zipU guess loweredScore
      let misses := (guessAndScore.filter (fun p =>
        p.2 == some 'e' && !((duplicateLetters guess).contains p.1))).map
        Prod.fst
      let s2 := excludeLetters s1 misses
      let s3 := applyScores s2 0 guessAndScore
      (none, sortSolver s3)

/-- `getSecondGuess()`: with no prior guesses, return the corpus as is;
otherwise filter against the last recorded guess and re-rank through a fresh
solver. -/
def getSecondGuess (s : WordleSolver) : List Word :=
  if s.guessesAndScores.length = 0 then s.corpus
  else
    match s.guessesAndScores.getLast? with
    | none => s.corpus
    | some (priorGuess, priorGuessScore) =>
      let startingWords := s.corpus.filter (fun word =>
        word.enum.all (fun p =>
          priorGuessScore[p.1]? == some 'x' || !(some p.2 == priorGuess[p.1]?)))
      (getSolutions (construct startingWords none false)).2

/-- `letterFrequencyScore(word)`: sum the current frequency-table entries of
the word's letters; a missing entry poisons the sum to `NaN` (`none`). -/
def letterFrequencyScore (s : WordleSolver) (word : Word) : Option Nat :=
  let letterFreq := letterFrequency s.corpus none
  word.foldl (fun acc letter => addFreq acc (letterFreq letter)) (some 0)

/-- `scoreGuess(guess, targetWord)` (the pure Scorer). -/
def scoreGuess (guess targetWord : Word) : Word :=
  (zipU guess targetWord).map (fun p =>
    if some p.1 == p.2 then 'x'
    else if targetWord.contains p.1 then 'i'
    else 'e')

/-- Folding `score` over a list of (guess, feedback) pairs: replaying a
history in order.  An erroring call leaves the solver untouched, as the
class does. -/
def scoreFold (s : WordleSolver) (ps : List (Word × Word)) : WordleSolver :=
  ps.foldl (fun t p => (score t p.1 p.2).2) s

/-! ## Claim-side predicates (the spec's description of the filtering) -/

/-- The letters the spec says are globally excluded: guess letters scored
`'e'` (Absent) that are not duplicated within the guess. -/
def missLetters (guess feedback : List Char) : List Char :=
  ((guess.zip feedback).filter (fun p =>
    p.2 == 'e' && decide (guess.count p.1 < 2))).map Prod.fst

/-- Stage one of the spec's filtering: the word survives the global
exclusion of the miss letters. -/
def missOk (guess feedback : List Char) (w : Word) : Bool :=
  (missLetters guess feedback).all (fun c => !(w.contains c))

/-- Stage two of the spec's filtering, position by position from `i`:
`Hit` keeps `guess[i]` at `i`, `Present` keeps the letter elsewhere only,
`Absent` keeps the letter away from `i`. -/
def posOk (w : Word) : Nat → List (Char × Char) → Bool
  | _, [] => true
  | i, p :: rest =>
    (if p.2 == 'x' then w[i]? == some p.1
     else if p.2 == 'i' then !(w[i]? == some p.1) && w.contains p.1
     else if p.2 == 'e' then !(w[i]? == some p.1)
     else true) && posOk w (i + 1) rest

/-- `posOk` lifted to the `Option Char` feedback entries produced by `zipU`. -/
def posOkO (w : Word) : Nat → List (Char × Option Char) → Bool
  | _, [] => true
  | i, p :: rest =>
    (if p.2 == some 'x' then w[i]? == some p.1
     else if p.2 == some 'i' then !(w[i]? == some p.1) && w.contains p.1
     else if p.2 == some 'e' then !(w[i]? == some p.1)
     else true) && posOkO w (i + 1) rest

/-! ## Basic lemmas -/

theorem contains_eq_decide_mem (l : List Char) (c : Char) :
    l.contains c = decide (c ∈ l) := by
  simp [List.contains]

theorem length_orderedInsert (le : Word → Word → Bool) (a : Word) :
    ∀ l : List Word, (orderedInsert le a l).length = l.length + 1 := by
  intro l
  induction l with
  | nil => rfl
  | cons b t ih => simp only [orderedInsert]; split <;> simp [ih]

theorem length_stableSort (le : Word → Word → Bool) (l : List Word) :
    (stableSort le l).length = l.length := by
  induction l with
  | nil => rfl
  | cons a t ih =>
    simp only [stableSort, List.foldr_cons] at ih ⊢
    rw [length_orderedInsert, ih]
    simp

theorem length_sortByCommonness (corpus : List Word) :
    (sortByCommonness corpus).length = corpus.length := by
  simp [sortByCommonness, length_stableSort]

theorem zipU_eq_map_zip :
    ∀ (xs ys : List Char), xs.length = ys.length →
      zipU xs ys = (xs.zip ys).map (fun p => (p.1, some p.2)) := by
  intro xs
  induction xs with
  | nil => intro ys _; rfl
  | cons x rest ih =>
    intro ys h
    cases ys with
    | nil => simp at h
    | cons y ys2 =>
      simp only [List.length_cons, Nat.succ.injEq] at h
      simp [zipU, ih ys2 h]

theorem mem_duplicateLetters (c : Char) :
    ∀ g : List Char, c ∈ duplicateLetters g ↔ 2 ≤ g.count c := by
  intro g
  induction g with
  | nil => simp [duplicateLetters]
  | cons a rest ih =>
    simp only [duplicateLetters, List.mem_append]
    by_cases hac : a = c
    · subst hac
      rw [List.count_cons_self]
      constructor
      · intro h
        rcases h with h | h
        · have : a ∈ rest := by
            by_contra hmem
            simp [contains_eq_decide_mem, hmem] at h
          have := List.count_pos_iff.mpr this
          omega
        · have := ih.mp h
          omega
      · intro h
        have h1 : 1 ≤ rest.count a := by omega
        have hmem : a ∈ rest := List.count_pos_iff.mp h1
        left
        simp [contains_eq_decide_mem, hmem]
    · have hcount : (a :: rest).count c = rest.count c :=
        List.count_cons_of_ne (fun h => hac h.symm) rest
      rw [hcount]
      constructor
      · intro h
        rcases h with h | h
        · rw [contains_eq_decide_mem] at h
          by_cases hr : a ∈ rest
          · have h2 : c = a := by simpa [hr] using h
            exact absurd h2.symm hac
          · simp [hr] at h
        · exact ih.mp h
      · intro h
        right
        exact ih.mpr h

theorem duplicateLetters_contains (g : List Char) (c : Char) :
    (duplicateLetters g).contains c = decide (2 ≤ g.count c) := by
  rw [contains_eq_decide_mem]
  exact decide_eq_decide.mpr (mem_duplicateLetters c g)

theorem all_not_contains_comm (w ls : List Char) :
    w.all (fun letter => !(ls.contains letter)) =
      ls.all (fun c => !(w.contains c)) := by
  rw [Bool.eq_iff_iff]
  simp only [List.all_eq_true, contains_eq_decide_mem, Bool.not_eq_true',
    decide_eq_false_iff_not]
  constructor
  · intro h a ha hb
    exact h a hb ha
  · intro h a ha hb
    exact h a hb ha

theorem applyScores_eq (ps : List (Char × Option Char)) :
    ∀ (s : WordleSolver) (i : Nat),
      applyScores s i ps =
        { s with corpus := s.corpus.filter (fun w => posOkO w i ps) } := by
  induction ps with
  | nil =>
    intro s i
    simp [applyScores, posOkO]
  | cons p rest ih =>
    intro s i
    simp only [applyScores]
    by_cases hx : (p.2 == some 'x') = true
    · rw [if_pos hx, ih]
      simp only [keepWithCorrectLetter]
      congr 1
      rw [List.filter_filter]
      apply List.filter_congr
      intro w _
      simp only [posOkO, hx, if_pos]
      exact Bool.and_comm _ _
    · rw [if_neg hx]
      by_cases hi : (p.2 == some 'i') = true
      · rw [if_pos hi, ih]
        simp only [keepWithMisplacedLetter]
        congr 1
        rw [List.filter_filter]
        apply List.filter_congr
        intro w _
        simp only [posOkO, hx, hi, if_pos, if_neg, Bool.false_eq_true,
          not_false_eq_true]
        exact Bool.and_comm _ _
      · rw [if_neg hi]
        by_cases he : (p.2 == some 'e') = true
        · rw [if_pos he, ih]
          simp only [excludeWithLetter]
          congr 1
          rw [List.filter_filter]
          apply List.filter_congr
          intro w _
          simp only [posOkO, hx, hi, he, if_pos, if_neg, Bool.false_eq_true,
            not_false_eq_true]
          exact Bool.and_comm _ _
        · rw [if_neg he, ih]
          congr 1
          apply List.filter_congr
          intro w _
          simp only [posOkO, hx, hi, he, if_neg, Bool.false_eq_true,
            not_false_eq_true]
          simp

theorem posOkO_map_some (w : Word) :
    ∀ (ps : List (Char × Char)) (i : Nat),
      posOkO w i (ps.map (fun p => (p.1, some p.2))) = posOk w i ps := by
  intro ps
  induction ps with
  | nil => intro i; rfl
  | cons p rest ih =>
    intro i
    simp only [List.map_cons, posOkO, posOk, ih]
    rfl

/-! ## Characterisation of `score` -/

theorem map_toLower_id (f : List Char)
    (hv : ∀ c ∈ f, c = 'x' ∨ c = 'e' ∨ c = 'i') :
    f.map Char.toLower = f := by
  induction f with
  | nil => rfl
  | cons a t ih =>
    have ha := hv a (by simp)
    have ht : ∀ c ∈ t, c = 'x' ∨ c = 'e' ∨ c = 'i' :=
      fun c hc => hv c (by simp [hc])
    simp only [List.map_cons, ih ht]
    congr 1
    rcases ha with h | h | h <;> subst h <;> rfl

theorem invalid_filter_eq_nil (f : List Char)
    (hv : ∀ c ∈ f, c = 'x' ∨ c = 'e' ∨ c = 'i') :
    f.filter (fun l => !(l == 'x') && !(l == 'e') && !(l == 'i')) = [] := by
  rw [List.filter_eq_nil_iff]
  intro a ha
  rcases hv a ha with h | h | h <;> subst h <;> decide

theorem misses_eq_missLetters (g f : List Char) (h : g.length = f.length) :
    ((zipU g f).filter (fun p =>
      p.2 == some 'e' && !((duplicateLetters g).contains p.1))).map Prod.fst
      = missLetters g f := by
  rw [zipU_eq_map_zip g f h, List.filter_map, List.map_map]
  unfold missLetters
  rw [List.filter_congr (q := fun p : Char × Char =>
      p.2 == 'e' && decide (g.count p.1 < 2))]
  · exact List.map_congr_left fun p _ => rfl
  · intro p _
    simp only [Function.comp_apply, duplicateLetters_contains]
    congr 1
    rw [Bool.eq_iff_iff]
    simp [Nat.lt_iff_add_one_le]

theorem excludeLetters_eq (s : WordleSolver) (ls : List Char) :
    excludeLetters s ls =
      { s with corpus := s.corpus.filter (fun w => ls.all (fun c => !(w.contains c))) } := by
  unfold excludeLetters
  congr 1
  apply List.filter_congr
  intro w _
  exact all_not_contains_comm w ls

theorem score_ok (s : WordleSolver) (g f : Word)
    (hg : g.length = s.guessLength) (hf : f.length = s.guessLength)
    (hv : ∀ c ∈ f, c = 'x' ∨ c = 'e' ∨ c = 'i') :
    score s g f = (none, { s with
      guessesAndScores := s.guessesAndScores ++ [(g, f)],
      corpus := sortByCommonness
        ((s.corpus.filter (missOk g f)).filter
          (fun w => posOk w 0 (g.zip f))) }) := by
  have hlen : g.length = f.length := by rw [hg, hf]
  have hlow := map_toLower_id f hv
  have hinv := invalid_filter_eq_nil f hv
  simp only [score, hlow, hinv, hg, hf, ne_eq, not_true_eq_false, if_false,
    List.length_nil, not_false_eq_true, if_true]
  rw [misses_eq_missLetters g f hlen, excludeLetters_eq,
    zipU_eq_map_zip g f hlen, applyScores_eq]
  unfold sortSolver missOk
  simp only [List.filter_filter]
  congr 1
  congr 1
  congr 1
  apply List.filter_congr
  intro w _
  rw [posOkO_map_some w (g.zip f) 0]

theorem score_err1 (s : WordleSolver) (g f : Word)
    (hg : g.length ≠ s.guessLength) :
    score s g f = (some "Guess must be guessLength letters long.", s) := by
  simp only [score, hg, ne_eq, not_false_eq_true, if_true]

theorem score_err2 (s : WordleSolver) (g f : Word)
    (hg : g.length = s.guessLength) (hf : f.length ≠ s.guessLength) :
    score s g f = (some "Score must be guessLength letters long.", s) := by
  simp only [score, hg, hf, ne_eq, not_true_eq_false, if_false,
    not_false_eq_true, if_true]

theorem score_err3 (s : WordleSolver) (g f : Word)
    (hg : g.length = s.guessLength) (hf : f.length = s.guessLength)
    (hv : ¬ ∀ c ∈ f, c = 'x' ∨ c = 'e' ∨ c = 'i') :
    score s g f = (some "Invalid score letters.", s) := by
  have hne : (f.filter (fun l => !(l == 'x') && !(l == 'e') && !(l == 'i'))) ≠ [] := by
    intro hnil
    apply hv
    intro c hc
    have hnc := List.filter_eq_nil_iff.mp hnil c hc
    by_contra hcon
    push_neg at hcon
    apply hnc
    simp only [Bool.and_eq_true, Bool.not_eq_true', beq_eq_false_iff_ne, ne_eq]
    exact ⟨⟨hcon.1, hcon.2.1⟩, hcon.2.2⟩
  have hlen : (f.filter (fun l => !(l == 'x') && !(l == 'e') && !(l == 'i'))).length ≠ 0 := by
    intro h0
    exact hne (List.length_eq_zero.mp h0)
  simp only [score, hg, hf, ne_eq, not_true_eq_false, if_false, hlen,
    not_false_eq_true, if_true]

theorem score_ok_iff (s : WordleSolver) (g f : Word) :
    (score s g f).1 = none ↔
      (g.length = s.guessLength ∧ f.length = s.guessLength ∧
        ∀ c ∈ f, c = 'x' ∨ c = 'e' ∨ c = 'i') := by
  constructor
  · intro h
    by_cases hg : g.length = s.guessLength
    · by_cases hf : f.length = s.guessLength
      · by_cases hv : ∀ c ∈ f, c = 'x' ∨ c = 'e' ∨ c = 'i'
        · exact ⟨hg, hf, hv⟩
        · rw [score_err3 s g f hg hf hv] at h
          simp at h
      · rw [score_err2 s g f hg hf] at h
        simp at h
    · rw [score_err1 s g f hg] at h
      simp at h
  · intro h
    rw [score_ok s g f h.1 h.2.1 h.2.2]

theorem score_err_state (s : WordleSolver) (g f : Word)
    (h : (score s g f).1 ≠ none) : (score s g f).2 = s := by
  by_cases hg : g.length = s.guessLength
  · by_cases hf : f.length = s.guessLength
    · by_cases hv : ∀ c ∈ f, c = 'x' ∨ c = 'e' ∨ c = 'i'
      · exact absurd (by rw [score_ok s g f hg hf hv]) h
      · rw [score_err3 s g f hg hf hv]
    · rw [score_err2 s g f hg hf]
  · rw [score_err1 s g f hg]

/-! ## Characterisation of `letterFrequency` -/

/-- Whether the index guard of `letterFrequency` lets position `i` through. -/
def relevant (atIndex : Option Nat) (i : Nat) : Bool :=
  !(decide (atIndex ≠ none ∧ atIndex ≠ some i))

theorem lfStep_eq (atIndex : Option Nat) (m : Char → Option Nat)
    (p : Nat × Char) :
    lfStep atIndex m p = if relevant atIndex p.1 then bumpLetter m p.2 else m := by
  unfold lfStep relevant
  by_cases h : atIndex ≠ none ∧ atIndex ≠ some p.1 <;> simp [h]

theorem truthyBump_some_pos (n : Nat) (h : n ≠ 0) : truthyBump (some n) = n := by
  cases n with
  | zero => exact absurd rfl h
  | succ k => rfl

theorem foldl_lfStep_eq (atIndex : Option Nat) (c : Char) :
    ∀ (ps : List (Nat × Char)) (m : Char → Option Nat),
      (ps.foldl (lfStep atIndex) m) c =
        (if (ps.filter (fun p => relevant atIndex p.1 && (p.2 == c))).length = 0
         then m c
         else some (truthyBump (m c) +
           (ps.filter (fun p => relevant atIndex p.1 && (p.2 == c))).length)) := by
  intro ps
  induction ps with
  | nil => intro m; simp
  | cons p rest ih =>
    intro m
    rw [List.foldl_cons, ih (lfStep atIndex m p), lfStep_eq]
    by_cases hrel : relevant atIndex p.1 = true
    · rw [if_pos hrel]
      by_cases heq : (p.2 == c) = true
      · have hpc : p.2 = c := by simpa using heq
        have hbc : bumpLetter m p.2 c = some (truthyBump (m c) + 1) := by
          unfold bumpLetter
          rw [hpc, if_pos rfl]
        have hfc : ((p :: rest).filter
            (fun q => relevant atIndex q.1 && (q.2 == c))) =
            p :: (rest.filter (fun q => relevant atIndex q.1 && (q.2 == c))) := by
          simp [List.filter_cons, hrel, heq]
        rw [hfc, List.length_cons, hbc]
        by_cases hk :
            (rest.filter (fun q => relevant atIndex q.1 && (q.2 == c))).length = 0
        · rw [if_pos hk, hk, if_neg (by omega)]
        · rw [if_neg hk, if_neg (by omega),
            truthyBump_some_pos _ (by omega)]
          congr 1
          omega
      · have hbc : bumpLetter m p.2 c = m c := by
          unfold bumpLetter
          rw [if_neg (fun hcc => heq (by simp [hcc]))]
        have hfc : ((p :: rest).filter
            (fun q => relevant atIndex q.1 && (q.2 == c))) =
            rest.filter (fun q => relevant atIndex q.1 && (q.2 == c)) := by
          simp [List.filter_cons, heq]
        rw [hfc, hbc]
    · rw [if_neg hrel]
      have hfc : ((p :: rest).filter
          (fun q => relevant atIndex q.1 && (q.2 == c))) =
          rest.filter (fun q => relevant atIndex q.1 && (q.2 == c)) := by
        simp [List.filter_cons, Bool.eq_false_iff.mpr hrel]
      rw [hfc]

/-- The number of (position, letter) pairs of the corpus that the
`letterFrequency` loop actually counts for letter `c`. -/
def lfCount (corpus : List Word) (atIndex : Option Nat) (c : Char) : Nat :=
  (corpus.map (fun w =>
    (w.enum.filter (fun p => relevant atIndex p.1 && (p.2 == c))).length)).sum

theorem letterFrequency_foldl (atIndex : Option Nat) (c : Char) :
    ∀ (corpus : List Word) (m : Char → Option Nat),
      (corpus.foldl (fun m word => word.enum.foldl (lfStep atIndex) m) m) c =
        (if lfCount corpus atIndex c = 0 then m c
         else some (truthyBump (m c) + lfCount corpus atIndex c)) := by
  intro corpus
  induction corpus with
  | nil => intro m; simp [lfCount]
  | cons w rest ih =>
    intro m
    rw [List.foldl_cons, ih, foldl_lfStep_eq]
    have hsum : lfCount (w :: rest) atIndex c =
        (w.enum.filter (fun p => relevant atIndex p.1 && (p.2 == c))).length +
          lfCount rest atIndex c := by
      simp [lfCount]
    by_cases hw :
        (w.enum.filter (fun p => relevant atIndex p.1 && (p.2 == c))).length = 0
    · rw [if_pos hw, hsum, hw, Nat.zero_add]
    · rw [if_neg hw, hsum]
      by_cases hr : lfCount rest atIndex c = 0
      · rw [hr]
        rw [if_pos rfl, if_neg (by omega), Nat.add_zero]
      · rw [if_neg hr, if_neg (by omega),
          truthyBump_some_pos _ (by omega)]
        congr 1
        omega

theorem letterFrequency_eq (corpus : List Word) (atIndex : Option Nat)
    (c : Char) :
    letterFrequency corpus atIndex c =
      (if lfCount corpus atIndex c = 0 then none
       else some (lfCount corpus atIndex c + 1)) := by
  unfold letterFrequency
  rw [letterFrequency_foldl]
  by_cases h0 : lfCount corpus atIndex c = 0
  · rw [if_pos h0, if_pos h0]
  · rw [if_neg h0, if_neg h0]
    congr 1
    simp [truthyBump]
    omega

theorem relevant_none (i : Nat) : relevant none i = true := by
  simp [relevant]

theorem relevant_some (j i : Nat) : relevant (some j) i = decide (j = i) := by
  by_cases h : j = i <;> simp [relevant, h]

theorem enumFrom_filter_snd (c : Char) :
    ∀ (w : List Char) (n : Nat),
      ((List.enumFrom n w).filter (fun p => p.2 == c)).length = w.count c := by
  intro w
  induction w with
  | nil => intro n; rfl
  | cons a t ih =>
    intro n
    simp only [List.enumFrom_cons, List.filter_cons]
    rw [List.count_cons]
    by_cases h : (a == c) = true
    · have hac : a = c := by simpa using h
      subst hac
      simp [ih]
    · simp only [h, Bool.false_eq_true, not_false_eq_true, if_neg, ih]
      have : (c == a) = false := by
        simp only [beq_eq_false_iff_ne, ne_eq]
        intro hca
        exact absurd (by simpa using hca.symm) h
      simp [this]

theorem lfCount_none (corpus : List Word) (c : Char) :
    lfCount corpus none c = (corpus.map (fun w => w.count c)).sum := by
  unfold lfCount
  congr 1
  apply List.map_congr_left
  intro w _
  have : ∀ p : Nat × Char,
      (relevant none p.1 && (p.2 == c)) = (p.2 == c) := by
    intro p
    rw [relevant_none]
    simp
  rw [List.filter_congr (fun p _ => this p)]
  exact enumFrom_filter_snd c w 0

theorem enumFrom_filter_at (c : Char) (i : Nat) :
    ∀ (w : List Char) (n : Nat),
      ((List.enumFrom n w).filter
        (fun p => relevant (some i) p.1 && (p.2 == c))).length =
        (if n ≤ i ∧ w[i - n]? = some c then 1 else 0) := by
  intro w
  induction w with
  | nil => intro n; simp
  | cons a t ih =>
    intro n
    simp only [List.enumFrom_cons, List.filter_cons]
    rcases Nat.lt_trichotomy n i with hlt | heqn | hgt
    · have hd : (relevant (some i) n && (a == c)) = false := by
        rw [relevant_some, decide_eq_false (by omega : ¬ i = n), Bool.false_and]
      rw [hd, if_neg Bool.false_ne_true, ih (n + 1)]
      have hsub : i - n = (i - (n + 1)) + 1 := by omega
      rw [hsub, List.getElem?_cons_succ]
      have h1 : (n + 1 ≤ i ∧ t[i - (n + 1)]? = some c) ↔
          (n ≤ i ∧ t[i - (n + 1)]? = some c) :=
        ⟨fun h => ⟨by omega, h.2⟩, fun h => ⟨by omega, h.2⟩⟩
      rw [if_congr h1 rfl rfl]
    · have hd : (relevant (some i) n && (a == c)) = (a == c) := by
        rw [relevant_some, decide_eq_true (by omega : i = n), Bool.true_and]
      have hzero : i - n = 0 := by omega
      rw [hd, hzero, List.getElem?_cons_zero]
      by_cases hac : (a == c) = true
      · rw [if_pos hac, List.length_cons, ih (n + 1)]
        rw [if_neg (fun h => by omega)]
        have hsome : some a = some c := by
          have hac2 : a = c := by simpa using hac
          rw [hac2]
        rw [if_pos ⟨by omega, hsome⟩]
      · rw [if_neg hac, ih (n + 1)]
        rw [if_neg (fun h => by omega)]
        rw [if_neg (fun h => hac (by simp [Option.some.inj h.2]))]
    · have hd : (relevant (some i) n && (a == c)) = false := by
        rw [relevant_some, decide_eq_false (by omega : ¬ i = n), Bool.false_and]
      rw [hd, if_neg Bool.false_ne_true, ih (n + 1)]
      rw [if_neg (fun h => by omega), if_neg (fun h => by omega)]

theorem enum_eq_enumFrom_zero (l : List Char) : l.enum = List.enumFrom 0 l := rfl

theorem lfCount_some (corpus : List Word) (i : Nat) (c : Char) :
    lfCount corpus (some i) c =
      (corpus.filter (fun w => w[i]? == some c)).length := by
  unfold lfCount
  induction corpus with
  | nil => rfl
  | cons w rest ih =>
    simp only [List.map_cons, List.sum_cons, List.filter_cons]
    rw [enum_eq_enumFrom_zero, enumFrom_filter_at c i w 0]
    by_cases h : w[i]? = some c
    · have hb : (w[i]? == some c) = true := by simp [h]
      rw [if_pos ⟨Nat.zero_le i, by simpa using h⟩, hb]
      simp only [if_pos, List.length_cons]
      omega
    · have hb : (w[i]? == some c) = false := by simp [h]
      rw [if_neg (fun hcon => h (by simpa using hcon.2)), hb]
      simp only [Bool.false_eq_true, not_false_eq_true, if_neg]
      omega

/-! ## `addFreq` folding (NaN propagation) -/

theorem addFreq_none_left (v : Option Nat) : addFreq none v = none := by
  cases v <;> rfl

theorem addFreq_none_right (acc : Option Nat) : addFreq acc none = none := by
  cases acc <;> rfl

theorem foldl_addFreq_poison (lf : Char → Option Nat) :
    ∀ (word : List Char) (acc : Option Nat),
      (acc = none ∨ ∃ c ∈ word, lf c = none) →
      word.foldl (fun acc letter => addFreq acc (lf letter)) acc = none := by
  intro word
  induction word with
  | nil =>
    intro acc h
    rcases h with h | ⟨c, hc, _⟩
    · exact h
    · simp at hc
  | cons a t ih =>
    intro acc h
    rw [List.foldl_cons]
    rcases h with h | ⟨c, hc, hlf⟩
    · refine ih _ (Or.inl ?_)
      rw [h]
      exact addFreq_none_left _
    · rcases List.mem_cons.mp hc with rfl | hct
      · refine ih _ (Or.inl ?_)
        rw [hlf]
        exact addFreq_none_right _
      · exact ih _ (Or.inr ⟨c, hct, hlf⟩)

theorem foldl_addFreq_isSome (lf : Char → Option Nat) :
    ∀ (word : List Char) (a : Nat),
      (∀ c ∈ word, (lf c).isSome) →
      (word.foldl (fun acc letter => addFreq acc (lf letter)) (some a)).isSome := by
  intro word
  induction word with
  | nil => intro a _; rfl
  | cons b t ih =>
    intro a h
    rw [List.foldl_cons]
    have hb := h b (by simp)
    rcases Option.isSome_iff_exists.mp hb with ⟨v, hv⟩
    rw [hv]
    exact ih (a + v) (fun c hc => h c (by simp [hc]))

theorem sum_counts_eq_zero_iff (corpus : List Word) (c : Char) :
    (corpus.map (fun w => w.count c)).sum = 0 ↔ ∀ w ∈ corpus, c ∉ w := by
  rw [List.sum_eq_zero_iff]
  constructor
  · intro h w hw
    have := h (w.count c) (List.mem_map_of_mem _ hw)
    exact List.count_eq_zero.mp this
  · intro h x hx
    rcases List.mem_map.mp hx with ⟨w, hw, rfl⟩
    exact List.count_eq_zero.mpr (h w hw)

/-! ## Remaining helpers -/

theorem length_filter_lt (p : Word → Bool) :
    ∀ l : List Word, (∃ x ∈ l, p x = false) → (l.filter p).length < l.length := by
  intro l
  induction l with
  | nil =>
    intro h
    rcases h with ⟨x, hx, _⟩
    simp at hx
  | cons a t ih =>
    intro h
    rw [List.filter_cons]
    by_cases ha : p a = true
    · rw [if_pos ha, List.length_cons, List.length_cons]
      rcases h with ⟨x, hx, hpx⟩
      rcases List.mem_cons.mp hx with rfl | hxt
      · rw [ha] at hpx
        cases hpx
      · have := ih ⟨x, hxt, hpx⟩
        omega
    · rw [if_neg ha, List.length_cons]
      have := List.length_filter_le p t
      omega

theorem zipU_getElem (xs : List Char) :
    ∀ (ys : List Char) (i : Nat),
      (zipU xs ys)[i]? = (xs[i]?).map (fun x => (x, ys[i]?)) := by
  induction xs with
  | nil =>
    intro ys i
    simp [zipU]
  | cons x rest ih =>
    intro ys i
    cases i with
    | zero =>
      simp [zipU, List.head?_eq_getElem?]
    | succ j =>
      simp only [zipU, List.getElem?_cons_succ, ih ys.tail j,
        List.getElem?_tail]

theorem scoreGuess_getElem (g t : Word) (i : Nat) :
    (scoreGuess g t)[i]? = (g[i]?).map (fun gc =>
      if some gc == t[i]? then 'x'
      else if t.contains gc then 'i'
      else 'e') := by
  unfold scoreGuess
  rw [List.getElem?_map, zipU_getElem g t i]
  cases g[i]? <;> rfl

theorem length_scoreGuess (g t : Word) : (scoreGuess g t).length = g.length := by
  unfold scoreGuess
  rw [List.length_map]
  induction g generalizing t with
  | nil => rfl
  | cons x rest ih => simp [zipU, ih]

/-! ## Demo constants (used by the concrete witnesses) -/

def cigar : Word := ['c', 'i', 'g', 'a', 'r']

def rebut : Word := ['r', 'e', 'b', 'u', 't']

def sissy : Word := ['s', 'i', 's', 's', 'y']

def demoCorpus : List Word := [cigar, rebut, sissy]

def demoSolver : WordleSolver := construct demoCorpus none false

/-! ## The claims -/

/-- C1: on a successful `score(guess, feedback)` call the corpus is filtered
exactly as specified: first every letter of the guess scored Absent that is
not duplicated within the guess is globally excluded (`missOk`), then each
position `i` applies its Hit/Present/Absent constraint (`posOk`); the result
is then re-ranked by `sortByCommonness`. -/
theorem C1_score_filters (s sNew : WordleSolver) (g f : Word)
    (hok : score s g f = (none, sNew)) :
    sNew.corpus = sortByCommonness
      ((s.corpus.filter (missOk g f)).filter
        (fun w => posOk w 0 (g.zip f))) := by
  have h1 : (score s g f).1 = none := by rw [hok]
  obtain ⟨hg, hf, hv⟩ := (score_ok_iff s g f).mp h1
  have heq := score_ok s g f hg hf hv
  rw [heq] at hok
  injection hok with h21 h22
  rw [← h22]

theorem C1_witness :
    (score demoSolver cigar ['x', 'x', 'x', 'x', 'x']).2.corpus =
      sortByCommonness ((demoSolver.corpus.filter
        (missOk cigar ['x', 'x', 'x', 'x', 'x'])).filter
        (fun w => posOk w 0 (cigar.zip ['x', 'x', 'x', 'x', 'x']))) :=
  C1_score_filters demoSolver
    (score demoSolver cigar ['x', 'x', 'x', 'x', 'x']).2
    cigar ['x', 'x', 'x', 'x', 'x'] (by decide)

/-- C2: incremental filtering equals full replay: folding further
(guess, feedback) pairs over an already-filtered solver yields exactly the
same solver — in particular the same corpus, words and order — as folding
the concatenated history over a freshly constructed solver from the same
original corpus. -/
theorem C2_incremental_replay (corpus : List Word) (sw : Option Word)
    (ps qs : List (Word × Word)) :
    (scoreFold (scoreFold (construct corpus sw false) ps) qs).corpus =
      (scoreFold (construct corpus sw false) (ps ++ qs)).corpus ∧
    scoreFold (scoreFold (construct corpus sw false) ps) qs =
      scoreFold (construct corpus sw false) (ps ++ qs) := by
  have h : scoreFold (scoreFold (construct corpus sw false) ps) qs =
      scoreFold (construct corpus sw false) (ps ++ qs) := by
    unfold scoreFold
    rw [List.foldl_append]
  exact ⟨by rw [h], h⟩

/-- C3 as stated is false: in the corpus ["abcde"] the letter 'a' appears
exactly once, yet `letterFrequency` maps it to 2 (the loop seeds a fresh
entry with 1 and then increments it). -/
theorem C3_counterexample :
    letterFrequency [['a', 'b', 'c', 'd', 'e']] none 'a' ≠
      some ((([['a', 'b', 'c', 'd', 'e']] : List Word).map
        (fun w => w.count 'a')).sum) := by
  decide

/-- C3 (amended): `letterFrequency` maps every letter occurring in the
corpus to ONE PLUS its number of occurrences (and, when `atIndex` is given,
to one plus the number of words having the letter at that index); a letter
with no relevant occurrence has no entry. -/
theorem C3_letterFrequency (corpus : List Word) (c : Char) :
    (letterFrequency corpus none c =
      (if (corpus.map (fun w => w.count c)).sum = 0 then none
       else some ((corpus.map (fun w => w.count c)).sum + 1))) ∧
    (∀ i : Nat, letterFrequency corpus (some i) c =
      (if (corpus.filter (fun w => w[i]? == some c)).length = 0 then none
       else some ((corpus.filter (fun w => w[i]? == some c)).length + 1))) := by
  constructor
  · rw [letterFrequency_eq, lfCount_none]
  · intro i
    rw [letterFrequency_eq, lfCount_some]

/-- C4 as stated is false: the uppercase feedback "XXXXX" has the right
length and lowercases into the alphabet, yet the call is rejected, because
validation inspects the raw (un-lowered) string. -/
theorem C4_counterexample :
    (score demoSolver cigar ['X', 'X', 'X', 'X', 'X']).1 ≠ none ∧
    ((['X', 'X', 'X', 'X', 'X'] : Word).map Char.toLower).all
      (fun c => c == 'x' || c == 'e' || c == 'i') = true ∧
    cigar.length = demoSolver.guessLength ∧
    (['X', 'X', 'X', 'X', 'X'] : Word).length = demoSolver.guessLength := by
  refine ⟨by decide, by decide, by decide, by decide⟩

/-- C4 (amended): feedback validation is case-sensitive.  With correct
lengths the call succeeds iff every character of the raw feedback is one of
the lowercase codes 'x', 'e', 'i' (so uppercase variants are rejected); on
success the feedback recorded in the history is the lowercased string, which
equals the input for every accepted input. -/
theorem C4_feedback_case (s : WordleSolver) (g f : Word)
    (hg : g.length = s.guessLength) (hf : f.length = s.guessLength) :
    ((score s g f).1 = none ↔ ∀ c ∈ f, c = 'x' ∨ c = 'e' ∨ c = 'i') ∧
    ((score s g f).1 = none →
      (score s g f).2.guessesAndScores =
        s.guessesAndScores ++ [(g, f.map Char.toLower)]) := by
  constructor
  · rw [score_ok_iff]
    exact ⟨fun h => h.2.2, fun h => ⟨hg, hf, h⟩⟩
  · intro h
    obtain ⟨_, _, hv⟩ := (score_ok_iff s g f).mp h
    rw [score_ok s g f hg hf hv]
    simp [map_toLower_id f hv]

theorem C4_witness :
    ((score demoSolver cigar ['x', 'x', 'x', 'x', 'x']).1 = none ↔
      ∀ c ∈ (['x', 'x', 'x', 'x', 'x'] : Word),
        c = 'x' ∨ c = 'e' ∨ c = 'i') ∧
    ((score demoSolver cigar ['x', 'x', 'x', 'x', 'x']).1 = none →
      (score demoSolver cigar ['x', 'x', 'x', 'x', 'x']).2.guessesAndScores =
        demoSolver.guessesAndScores ++
          [(cigar, (['x', 'x', 'x', 'x', 'x'] : Word).map Char.toLower)]) :=
  C4_feedback_case demoSolver cigar ['x', 'x', 'x', 'x', 'x']
    (by decide) (by decide)

/-- C5: `score` raises an error iff the guess length is wrong, the feedback
length is wrong, or the feedback has a character outside the recognised
alphabet; and an erroring call leaves the solver (corpus and history)
exactly as it was. -/
theorem C5_score_validation (s : WordleSolver) (g f : Word) :
    ((score s g f).1 ≠ none ↔
      (g.length ≠ s.guessLength ∨ f.length ≠ s.guessLength ∨
        ∃ c ∈ f, c ≠ 'x' ∧ c ≠ 'e' ∧ c ≠ 'i')) ∧
    ((score s g f).1 ≠ none → (score s g f).2 = s) := by
  have h3 : (¬ ∀ c ∈ f, c = 'x' ∨ c = 'e' ∨ c = 'i') ↔
      ∃ c ∈ f, c ≠ 'x' ∧ c ≠ 'e' ∧ c ≠ 'i' := by
    constructor
    · intro h
      push_neg at h
      exact h
    · intro h
      push_neg
      exact h
  constructor
  · rw [Ne, score_ok_iff, not_and_or, not_and_or, h3]
  · exact fun h => score_err_state s g f h

theorem C5_witness :
    (score demoSolver ['c', 'a', 't'] ['x', 'x', 'x', 'x', 'x']).1 ≠ none ∧
    (score demoSolver ['c', 'a', 't'] ['x', 'x', 'x', 'x', 'x']).2 =
      demoSolver := by
  have h : (score demoSolver ['c', 'a', 't']
      ['x', 'x', 'x', 'x', 'x']).1 ≠ none := by decide
  exact ⟨h,
    (C5_score_validation demoSolver ['c', 'a', 't']
      ['x', 'x', 'x', 'x', 'x']).2 h⟩

/-- C6: a successful `score` call never grows the corpus, and strictly
shrinks it whenever some word of the prior corpus fails one of the applied
constraints (the global exclusion or a positional constraint). -/
theorem C6_corpus_shrinks (s : WordleSolver) (g f : Word)
    (hok : (score s g f).1 = none) :
    (score s g f).2.corpus.length ≤ s.corpus.length ∧
    ((∃ w ∈ s.corpus,
        (missOk g f w && posOk w 0 (g.zip f)) = false) →
      (score s g f).2.corpus.length < s.corpus.length) := by
  obtain ⟨hg, hf, hv⟩ := (score_ok_iff s g f).mp hok
  rw [score_ok s g f hg hf hv]
  constructor
  · show (sortByCommonness _).length ≤ _
    rw [length_sortByCommonness]
    exact le_trans (List.length_filter_le _ _) (List.length_filter_le _ _)
  · intro hex
    show (sortByCommonness _).length < _
    rw [length_sortByCommonness, List.filter_filter]
    apply length_filter_lt
    rcases hex with ⟨w, hw, hwf⟩
    refine ⟨w, hw, ?_⟩
    rw [Bool.and_comm] at hwf
    exact hwf

theorem C6_witness :
    (score demoSolver cigar ['x', 'x', 'x', 'x', 'x']).2.corpus.length ≤
      demoSolver.corpus.length ∧
    (score demoSolver cigar ['x', 'x', 'x', 'x', 'x']).2.corpus.length <
      demoSolver.corpus.length := by
  have h := C6_corpus_shrinks demoSolver cigar ['x', 'x', 'x', 'x', 'x']
    (by decide)
  exact ⟨h.1, h.2 (by decide)⟩

/-- C7: `getBestGuess` returns the starting-word override while the history
is empty; a solver constructed from an empty corpus with no explicit
starting word has a `none` override, so its very first call returns the
no-guess sentinel; with a non-empty history it returns the head of the
freshly re-ranked corpus, which is `none` exactly when the corpus has been
filtered to empty. -/
theorem C7_getBestGuess (s : WordleSolver) :
    (s.guessesAndScores = [] → (getBestGuess s).2 = s.startingWord) ∧
    (s.guessesAndScores ≠ [] →
      (getBestGuess s).2 = (sortByCommonness s.corpus).head?) ∧
    (s.guessesAndScores ≠ [] → s.corpus = [] → (getBestGuess s).2 = none) ∧
    ((construct [] none false).startingWord = none ∧
      (getBestGuess (construct [] none false)).2 = none) := by
  refine ⟨?_, ?_, ?_, by decide⟩
  · intro h
    unfold getBestGuess
    rw [if_pos (by simp [h])]
  · intro h
    unfold getBestGuess
    rw [if_neg (by simp [h])]
    rfl
  · intro h hc
    unfold getBestGuess
    rw [if_neg (by simp [h])]
    show (sortByCommonness s.corpus).head? = none
    rw [hc]
    rfl

theorem C7_witness :
    (getBestGuess demoSolver).2 = demoSolver.startingWord ∧
    (getBestGuess (score demoSolver cigar ['x', 'x', 'x', 'x', 'x']).2).2 =
      (sortByCommonness
        (score demoSolver cigar ['x', 'x', 'x', 'x', 'x']).2.corpus).head? :=
  ⟨(C7_getBestGuess demoSolver).1 (by decide),
    (C7_getBestGuess
      (score demoSolver cigar ['x', 'x', 'x', 'x', 'x']).2).2.1 (by decide)⟩

/-- C8: `scoreGuess` yields, per position, 'x' on an exact match, otherwise
'i' when the guessed letter occurs anywhere in the target, otherwise 'e';
scoring a word against itself yields the all-'x' feedback. -/
theorem C8_scoreGuess (g t : Word) (h : g.length = t.length) :
    ((scoreGuess g t).length = g.length ∧
      ∀ (i : Nat) (gc : Char), g[i]? = some gc →
        (scoreGuess g t)[i]? = some (if t[i]? = some gc then 'x'
          else if gc ∈ t then 'i' else 'e')) ∧
    scoreGuess t t = List.replicate t.length 'x' := by
  constructor
  · constructor
    · exact length_scoreGuess g t
    · intro i gc hgc
      rw [scoreGuess_getElem, hgc]
      by_cases h1 : t[i]? = some gc
      · simp [h1]
      · have h1n : ¬ some gc = t[i]? := fun hx => h1 hx.symm
        have h1s : (some gc == t[i]?) = false := by
          simp only [beq_eq_false_iff_ne, ne_eq]
          exact h1n
        by_cases h2 : gc ∈ t
        · simp [h1, h1n, h1s, h2, contains_eq_decide_mem]
        · simp [h1, h1n, h1s, h2, contains_eq_decide_mem]
  · apply List.ext_getElem?
    intro i
    by_cases hi : i < t.length
    · have hgc : t[i]? = some t[i] := List.getElem?_eq_getElem hi
      rw [scoreGuess_getElem, hgc, List.getElem?_replicate, if_pos hi]
      simp
    · rw [List.getElem?_eq_none (by rw [length_scoreGuess]; omega),
        List.getElem?_replicate, if_neg hi]

theorem C8_witness :
    scoreGuess cigar cigar = List.replicate cigar.length 'x' :=
  (C8_scoreGuess cigar cigar rfl).2

/-- C9: `letterFrequencyScore` yields a number only when every letter of the
word occurs in the corpus: a word with a letter occurring in no corpus word
makes the table lookup miss, poisoning the sum to NaN (modelled `none`)
instead of treating the letter as frequency zero; conversely when every
letter occurs somewhere the score is a number. -/
theorem C9_letterFrequencyScore (s : WordleSolver) (word : Word) :
    ((∃ c ∈ word, ∀ w ∈ s.corpus, c ∉ w) →
      letterFrequencyScore s word = none) ∧
    ((∀ c ∈ word, ∃ w ∈ s.corpus, c ∈ w) →
      (letterFrequencyScore s word).isSome) := by
  constructor
  · intro hex
    rcases hex with ⟨c, hc, hall⟩
    unfold letterFrequencyScore
    apply foldl_addFreq_poison
    right
    refine ⟨c, hc, ?_⟩
    rw [letterFrequency_eq, lfCount_none,
      if_pos ((sum_counts_eq_zero_iff s.corpus c).mpr hall)]
  · intro hall
    unfold letterFrequencyScore
    apply foldl_addFreq_isSome
    intro c hc
    rcases hall c hc with ⟨w, hw, hcw⟩
    rw [letterFrequency_eq, lfCount_none]
    rw [if_neg (fun h0 =>
      ((sum_counts_eq_zero_iff s.corpus c).mp h0 w hw) hcw)]
    rfl

theorem C9_witness :
    letterFrequencyScore demoSolver ['z', 'z', 'z', 'z', 'z'] = none ∧
    (letterFrequencyScore demoSolver cigar).isSome :=
  ⟨(C9_letterFrequencyScore demoSolver ['z', 'z', 'z', 'z', 'z']).1
      (by decide),
    (C9_letterFrequencyScore demoSolver cigar).2 (by decide)⟩

/-- C10: when the guess history is empty, `getSecondGuess` short-circuits
and returns the current corpus exactly as it is — no exclusion filter, no
fresh solver, no re-ranking. -/
theorem C10_getSecondGuess_empty (s : WordleSolver)
    (h : s.guessesAndScores = []) : getSecondGuess s = s.corpus := by
  unfold getSecondGuess
  rw [if_pos (by simp [h])]

theorem C10_witness : getSecondGuess demoSolver = demoSolver.corpus :=
  C10_getSecondGuess_empty demoSolver (by decide)

end Wordle
